import Mathlib

/-!
Verification development for the tsg-python grammar binding and the
incremental parsing engine it fronts.

The repository file under verification is
`src/python/extractor/tsg-python/bindings/swift/TreeSitterTsgPython/tsg_python.h`,
a public C header declaring the grammar accessor `tree_sitter_tsg_python`.
The header is embedded below as concrete data (`tsg_python_h`).  The engine
behind the accessor (lexer, table-driven parsing, persistent trees, edit
reconciliation) is not part of the staged sources, so its operations are
modelled from the specification's own words; every such definition carries a
doc comment starting `Modelled from the spec:`.
-/

/-! ## Shallow embedding of the C header `tsg_python.h` -/

/-- A C type expression as it appears in the header: a named (typedef) type,
a const-qualified type, or a pointer type. -/
inductive CType where
  | named (n : String)
  | constQual (t : CType)
  | ptr (t : CType)
deriving DecidableEq, Repr

/-- A `typedef struct Tag Name;` line: when `hasDefinition` is false the
struct is only forward-declared, so the type is incomplete in this header. -/
structure ForwardTypedef where
  structTag : String
  name : String
  hasDefinition : Bool
deriving DecidableEq, Repr

/-- A function declaration of the header.  `paramTypes = []` renders a
`(void)` parameter list (no arguments).  `hasCLinkage` records that the
declaration sits inside the conditional C-linkage block the header opens
under `__cplusplus`, so the exported symbol is ABI-stable. -/
structure FunDecl where
  name : String
  returnType : CType
  paramTypes : List CType
  hasCLinkage : Bool
deriving DecidableEq, Repr

/-- The contents of one C header file. -/
structure HeaderFile where
  guardMacro : String
  typedefs : List ForwardTypedef
  functions : List FunDecl
deriving DecidableEq, Repr

/-- The embedding of `tsg_python.h`: include guard `TREE_SITTER_TSG_PYTHON_H_`,
the forward declaration `typedef struct TSLanguage TSLanguage;` (no
definition, hence incomplete), and the single declaration
`const TSLanguage *tree_sitter_tsg_python(void);` inside the C-linkage
block. -/
def tsg_python_h : HeaderFile :=
  { guardMacro := "TREE_SITTER_TSG_PYTHON_H_"
    typedefs := [{ structTag := "TSLanguage", name := "TSLanguage", hasDefinition := false }]
    functions :=
      [{ name := "tree_sitter_tsg_python"
         returnType := CType.ptr (CType.constQual (CType.named "TSLanguage"))
         paramTypes := []
         hasCLinkage := true }] }

/-- Whether a C type expression mentions the named type `s`. -/
def CType.mentionsName : CType → String → Bool
  | CType.named n, s => n == s
  | CType.constQual t, s => t.mentionsName s
  | CType.ptr t, s => t.mentionsName s

/-- Whether a declaration involves the named type anywhere in its signature. -/
def FunDecl.involves (f : FunDecl) (s : String) : Bool :=
  f.returnType.mentionsName s || f.paramTypes.any (fun p => p.mentionsName s)

/-- Whether a return type hands out a value only behind a pointer. -/
def CType.isPointer : CType → Bool
  | CType.ptr _ => true
  | _ => false

/-- Whether a return type is a pointer whose pointee is const-qualified. -/
def CType.isConstPointer : CType → Bool
  | CType.ptr (CType.constQual _) => true
  | _ => false

/-! ## The grammar accessor, modelled from the spec -/

/-- Modelled from the spec: the implementation of `tree_sitter_tsg_python`
(the generated grammar object defining the parse table and the accessor body)
is not among the staged sources; only its declaration in `tsg_python.h` is.
The spec describes the accessor as "a single exported, ABI-stable function
returning an opaque handle to a compiled Parse Table for one named grammar;
takes no arguments, is idempotent, and must be safe to call from multiple
threads returning the same handle value", with "no state, no algorithm, and
no failure modes beyond grammar table exists".  `GrammarWorld` is the
observable state such a call runs in: the address of the static parse table
and whether the table exists (is linked into the process). -/
structure GrammarWorld where
  tableAddr : Nat
  tableDefined : Bool
deriving DecidableEq, Repr

/-- Modelled from the spec: one call of the accessor, as a state transition.
It reads the world, never writes it, and yields the table handle whenever the
grammar table exists (`none` models the sole failure mode "grammar table
exists" failing, which cannot arise in a linked binary). -/
def tree_sitter_tsg_python (w : GrammarWorld) : GrammarWorld × Option Nat :=
  (w, if w.tableDefined then some w.tableAddr else none)

/-- Modelled from the spec: a sequence of `n` accessor calls from one caller,
each running in the state the previous call left behind; returns the final
state and every call's result, oldest first. -/
def runCalls : GrammarWorld → Nat → GrammarWorld × List (Option Nat)
  | w, 0 => (w, [])
  | w, n + 1 =>
      let c := tree_sitter_tsg_python w
      let rest := runCalls c.1 n
      (rest.1, c.2 :: rest.2)

/-- Modelled from the spec: an interleaved execution of accessor calls by
many threads.  The schedule lists, in global time order, which thread makes
the next call; each call runs in the state the previous call (of any thread)
left behind.  The result pairs each scheduled call with its calling thread. -/
def runThreads : GrammarWorld → List Nat → GrammarWorld × List (Nat × Option Nat)
  | w, [] => (w, [])
  | w, tid :: rest =>
      let c := tree_sitter_tsg_python w
      let after := runThreads c.1 rest
      (after.1, (tid, c.2) :: after.2)

/-! ## The parsing engine, modelled from the spec -/

/-- Modelled from the spec: the engine core (lexer, table-driven parsing,
tree store, reconciler) is not among the staged sources.  Token categories of
the modelled lexical rules: runs of alphabetic characters, runs of digits,
runs of whitespace, single punctuation characters, and the synthetic error
category for characters no rule matches ("emit a synthetic error token
spanning one code point and advance"). -/
inductive TokClass where
  | alphaTok
  | digitTok
  | spaceTok
  | punctTok
  | errorTok
deriving DecidableEq, Repr

/-- Whether a token category forms maximal runs (longest match); punctuation
and synthetic error tokens always span exactly one code point. -/
def mergeable : TokClass → Bool
  | TokClass.alphaTok => true
  | TokClass.digitTok => true
  | TokClass.spaceTok => true
  | TokClass.punctTok => false
  | TokClass.errorTok => false

/-- Modelled from the spec: "Token: a typed span (symbol, start_byte,
end_byte, ...); produced by the lexer, consumed by the parser; never mutated
after creation."  Point (line/column) companions of the byte offsets are
omitted; spans are modelled at byte granularity. -/
structure Token where
  sym : TokClass
  startB : Nat
  endB : Nat
deriving DecidableEq, Repr

/-- Modelled from the spec: the "Parse Table" is "an immutable, precompiled
description of grammar states, transitions, ... and token lexing rules",
"supplied once at engine construction; never mutated".  The modelled table
carries the character classification driving the lexical rules and the
grammar symbol of the root rule. -/
structure ParseTable where
  classify : Char → TokClass
  rootSymbol : String

/-- Modelled from the spec: the lexer's inner loop.  `k` is the category of
the token currently being built, `st` its start offset and `cur` the offset
one past the characters consumed into it so far.  A following character of
the same mergeable category extends the token (longest match); any other
character closes it and starts a fresh token. -/
def lexStep (tab : ParseTable) (k : TokClass) (st cur : Nat) : List Char → List Token
  | [] => [⟨k, st, cur⟩]
  | c :: cs =>
      if mergeable k = true ∧ tab.classify c = k then
        lexStep tab k st (cur + 1) cs
      else
        ⟨k, st, cur⟩ :: lexStep tab (tab.classify c) cur (cur + 1) cs

/-- Modelled from the spec: the lexer, "converts a character stream into a
... sequence of typed tokens"; `off` is the byte offset of the first
character of the stream. -/
def lexFrom (tab : ParseTable) : List Char → Nat → List Token
  | [], _ => []
  | c :: cs, off => lexStep tab (tab.classify c) off (off + 1) cs

/-- The token sequence of a whole text. -/
def lexText (tab : ParseTable) (t : List Char) : List Token :=
  lexFrom tab t 0

/-- Modelled from the spec: "Syntax Node: represents either a token (leaf) or
a reduction (internal node) with an ordered sequence of child Syntax Nodes.
Attributes: grammar symbol, byte span, ... is-error flag, is-missing flag."
Point spans are omitted as with tokens. -/
inductive NodeSym where
  | tok (k : TokClass)
  | rule (name : String)
deriving DecidableEq, Repr

/-- One node of a syntax tree; `children = []` for token leaves. -/
inductive SyntaxNode where
  | mk (sym : NodeSym) (startB endB : Nat) (isError isMissing : Bool)
      (children : List SyntaxNode)

/-- The grammar symbol of a node. -/
def SyntaxNode.sym : SyntaxNode → NodeSym
  | SyntaxNode.mk s _ _ _ _ _ => s

/-- The byte offset where a node's span starts. -/
def SyntaxNode.startB : SyntaxNode → Nat
  | SyntaxNode.mk _ s _ _ _ _ => s

/-- The byte offset one past a node's span. -/
def SyntaxNode.endB : SyntaxNode → Nat
  | SyntaxNode.mk _ _ e _ _ _ => e

/-- The ordered children of a node. -/
def SyntaxNode.children : SyntaxNode → List SyntaxNode
  | SyntaxNode.mk _ _ _ _ _ cs => cs

/-- The leaf node of a token; the is-error flag is set exactly on synthetic
error tokens, and nothing in the modelled grammar synthesizes missing
tokens. -/
def leafOf (tok : Token) : SyntaxNode :=
  SyntaxNode.mk (NodeSym.tok tok.sym) tok.startB tok.endB
    (tok.sym == TokClass.errorTok) false []

/-- Modelled from the spec: the parse entry point
"parse(table_handle, text) -> SyntaxTree".  It returns "exactly one root
Syntax Node whose span covers the entire input range, even on malformed
input": the root rule node over the token leaves of the whole text. -/
def parse (tab : ParseTable) (t : List Char) : SyntaxNode :=
  SyntaxNode.mk (NodeSym.rule tab.rootSymbol) 0 t.length false false
    ((lexText tab t).map leafOf)

/-- Modelled from the spec: "Edit Record: (start_byte, old_end_byte,
new_end_byte, ...) describing a single textual replacement"; the point
companions of the byte offsets are omitted. -/
structure EditRecord where
  startB : Nat
  oldEndB : Nat
  newEndB : Nat
deriving DecidableEq, Repr

/-- An edit together with the replacement characters it writes; used to state
what "the resulting text" of an edit sequence is. -/
structure TextEdit where
  startB : Nat
  oldEndB : Nat
  replacement : List Char
deriving DecidableEq, Repr

/-- The Edit Record of an edit: the new end is the start plus the length of
the replacement. -/
def TextEdit.record (e : TextEdit) : EditRecord :=
  ⟨e.startB, e.oldEndB, e.startB + e.replacement.length⟩

/-- The Edit Records of an edit sequence. -/
def edRecords (es : List TextEdit) : List EditRecord :=
  es.map TextEdit.record

/-- Applying one edit to a text: the bytes of `[startB, oldEndB)` are
replaced by the replacement characters. -/
def applyEdit (t : List Char) (e : TextEdit) : List Char :=
  t.take e.startB ++ e.replacement ++ t.drop e.oldEndB

/-- Applying an edit sequence in order; per the spec each subsequent edit's
offsets are "already expressed in post-prior-edit coordinates". -/
def applyEdits (t : List Char) (es : List TextEdit) : List Char :=
  es.foldl applyEdit t

/-- An edit that replaces a text range of `t` with identical text. -/
def TextEdit.isNoop (t : List Char) (e : TextEdit) : Prop :=
  e.startB ≤ e.oldEndB ∧ e.oldEndB ≤ t.length ∧
    e.replacement = (t.drop e.startB).take (e.oldEndB - e.startB)

instance (t : List Char) (e : TextEdit) : Decidable (e.isNoop t) := by
  unfold TextEdit.isNoop; infer_instance

/-- Modelled from the spec: step (1) of reconciliation for one edit record,
on the leaf tokens of the previous tree: "marking all nodes whose span
intersects [start_byte, old_end_byte) as invalidated, and shifting the
byte ... spans of all nodes strictly after the edit by the byte ... delta
(new_end - old_end)". -/
def shiftInvalidate (e : EditRecord) (toks : List Token) : List Token :=
  toks.filterMap fun tok =>
    if tok.endB ≤ e.startB then some tok
    else if e.oldEndB ≤ tok.startB then
      some ⟨tok.sym, tok.startB - e.oldEndB + e.newEndB, tok.endB - e.oldEndB + e.newEndB⟩
    else none

/-- The tokens of a tree's leaf children, dropping any non-leaf child. -/
def leafTokens (n : SyntaxNode) : List Token :=
  n.children.filterMap fun c =>
    match c with
    | SyntaxNode.mk (NodeSym.tok k) s e _ _ _ => some ⟨k, s, e⟩
    | _ => none

/-- The tokens of re-lexing the byte range `[a, b)` of `t`. -/
def lexSlice (tab : ParseTable) (t : List Char) (a b : Nat) : List Token :=
  lexFrom tab ((t.drop a).take (b - a)) a

/-- Modelled from the spec: step (2) of reconciliation, re-running the lexer
"restricted to a minimal re-scan window bracketed by the nearest unaffected
node boundaries on each side": the gaps before, between and after the
retained tokens are re-lexed from the new text and spliced around them. -/
def fillGaps (tab : ParseTable) (t : List Char) : Nat → List Token → List Token
  | pos, [] => lexSlice tab t pos t.length
  | pos, tok :: toks =>
      lexSlice tab t pos tok.startB ++ (tok :: fillGaps tab t tok.endB toks)

/-- Modelled from the spec: step (3)'s re-validation of a spliced token list
against the new text, mirroring "re-validating that symbol adjacency still
matches table-valid transitions at the splice boundary".  The checker walks
the candidate tokens over the text: each token must start where the previous
one ended, be non-empty, consist of characters of its own category, span one
code point unless its category is mergeable, and end at a boundary the lexer
would break at (the next character, if any, must not extend it); the final
token must end at the end of the text. -/
def checkToks (tab : ParseTable) : List Char → Nat → List Token → Bool
  | l, _, [] => l.isEmpty
  | l, off, tok :: ts =>
      decide (tok.startB = off) && decide (0 < tok.endB - tok.startB) &&
      decide (tok.endB - tok.startB ≤ l.length) &&
      (l.take (tok.endB - tok.startB)).all (fun d => decide (tab.classify d = tok.sym)) &&
      (mergeable tok.sym || decide (tok.endB - tok.startB = 1)) &&
      (match l.drop (tok.endB - tok.startB) with
       | [] => true
       | d :: _ => !(mergeable tok.sym && decide (tab.classify d = tok.sym))) &&
      checkToks tab (l.drop (tok.endB - tok.startB)) tok.endB ts

/-- Step (1) of reconciliation over a whole edit sequence: the previous
tree's leaf tokens, invalidated and shifted edit by edit. -/
def retainedTokens (prev : SyntaxNode) (edits : List EditRecord) : List Token :=
  edits.foldl (fun toks e => shiftInvalidate e toks) (leafTokens prev)

/-- The spliced token list reconciliation proposes: the previous tree's
retained (shifted) tokens with the re-lexed gaps of the new text filled in. -/
def spliceCandidate (tab : ParseTable) (prev : SyntaxNode) (edits : List EditRecord)
    (t2 : List Char) : List Token :=
  fillGaps tab t2 0 (retainedTokens prev edits)

/-- Modelled from the spec: the incremental entry point "reparse(table_handle,
previous_tree, edits, new_text) -> SyntaxTree".  Step (1) invalidates and
shifts the previous tree's leaf tokens per edit record (`retainedTokens`);
step (2) re-lexes the gaps of the new text around the retained tokens
(`spliceCandidate`); step (3) re-validates the spliced token list against the
new text, and on any mismatch widens to the whole tree, i.e. "falls back to a
full reparse (never fails outright)". -/
def reconcile (tab : ParseTable) (prev : SyntaxNode) (edits : List EditRecord)
    (t2 : List Char) : SyntaxNode :=
  if checkToks tab t2 0 (spliceCandidate tab prev edits t2) = true then
    SyntaxNode.mk (NodeSym.rule tab.rootSymbol) 0 t2.length false false
      ((spliceCandidate tab prev edits t2).map leafOf)
  else parse tab t2

/-- Modelled from the spec: the engine's whole mutable world, for stating
that no operation mutates the Parse Table after it is loaded: the table
"supplied once at engine construction" and the trees produced so far. -/
structure EngineState where
  table : ParseTable
  trees : List SyntaxNode

/-- Modelled from the spec: the operations a caller can run against the
engine: a full parse of a text, or a reconciliation of an earlier tree
(picked by index) under some edits against a new text. -/
inductive EngineOp where
  | parseText (t : List Char)
  | reconcileTree (i : Nat) (es : List EditRecord) (t : List Char)

/-- One engine operation: it reads the table, reads earlier trees, and
appends the produced tree. -/
def stepEngine (s : EngineState) : EngineOp → EngineState
  | EngineOp.parseText t => ⟨s.table, s.trees ++ [parse s.table t]⟩
  | EngineOp.reconcileTree i es t =>
      ⟨s.table, s.trees ++ [reconcile s.table (s.trees.getD i (parse s.table [])) es t]⟩

/-- Running a sequence of engine operations. -/
def runEngine (s : EngineState) : List EngineOp → EngineState
  | [] => s
  | op :: ops => runEngine (stepEngine s op) ops

/-- A concrete parse table used by the witnesses: Python-flavoured character
classes over the modelled token categories. -/
def pyClassify (c : Char) : TokClass :=
  if c.isAlpha || c = '_' then TokClass.alphaTok
  else if c.isDigit then TokClass.digitTok
  else if c = ' ' || c = '\n' || c = '\t' then TokClass.spaceTok
  else if c ∈ ['(', ')', ':', '+', '-', '*', '=', ',', '.', '[', ']'] then TokClass.punctTok
  else TokClass.errorTok

/-- A concrete parse table for witnesses. -/
def pyTable : ParseTable :=
  { classify := pyClassify, rootSymbol := "module" }

/-- Whether a token list consecutively covers the byte range `[a, b)`: each
token starts where the previous one ended, the first at `a`, the last ending
at `b`. -/
def coversTok : Nat → List Token → Nat → Bool
  | a, [], b => decide (a = b)
  | a, tok :: ts, b => decide (tok.startB = a) && coversTok tok.endB ts b

/-- Whether a child list consecutively covers the byte range `[a, b)`:
children are ordered left to right, each child's span starting where the
previous one ended, so the spans are contiguous and non-overlapping and
their union is exactly `[a, b)`. -/
def coversFrom : Nat → List SyntaxNode → Nat → Bool
  | a, [], b => decide (a = b)
  | a, n :: ns, b => decide (n.startB = a) && coversFrom n.endB ns b

mutual
/-- The spec's span invariant, checked over a whole tree: every internal
(rule) node's span is exactly the contiguous, non-overlapping union of its
children's spans with the children in source order; token leaves carry their
own spans. -/
def wellNested : SyntaxNode → Bool
  | SyntaxNode.mk (NodeSym.tok _) _ _ _ _ _ => true
  | SyntaxNode.mk (NodeSym.rule _) s e _ _ cs => coversFrom s cs e && nestedAll cs

/-- `wellNested` at every node of a list. -/
def nestedAll : List SyntaxNode → Bool
  | [] => true
  | n :: ns => wellNested n && nestedAll ns
end

/-! ## Lemmas about the lexer and the reconciler -/

theorem lexStep_length (tab : ParseTable) :
    ∀ (l : List Char) (k : TokClass) (st cur : Nat),
      (lexStep tab k st cur l).length ≤ l.length + 1 := by
  intro l
  induction l with
  | nil => intro k st cur; simp [lexStep]
  | cons c cs ih =>
      intro k st cur
      by_cases h : mergeable k = true ∧ tab.classify c = k
      · rw [lexStep, if_pos h]
        have := ih k st (cur + 1)
        simp only [List.length_cons]
        omega
      · rw [lexStep, if_neg h]
        have := ih (tab.classify c) cur (cur + 1)
        simp only [List.length_cons]
        omega

theorem lexStep_progress (tab : ParseTable) :
    ∀ (l : List Char) (k : TokClass) (st cur : Nat), st < cur →
      ∀ tok ∈ lexStep tab k st cur l, tok.startB < tok.endB := by
  intro l
  induction l with
  | nil =>
      intro k st cur hlt tok htok
      rw [lexStep] at htok
      simp at htok
      subst htok
      exact hlt
  | cons c cs ih =>
      intro k st cur hlt tok htok
      by_cases h : mergeable k = true ∧ tab.classify c = k
      · rw [lexStep, if_pos h] at htok
        exact ih k st (cur + 1) (by omega) tok htok
      · rw [lexStep, if_neg h] at htok
        rcases List.mem_cons.mp htok with heq | hmem
        · subst heq; exact hlt
        · exact ih (tab.classify c) cur (cur + 1) (by omega) tok hmem

theorem lexStep_covers (tab : ParseTable) :
    ∀ (l : List Char) (k : TokClass) (st cur : Nat),
      coversTok st (lexStep tab k st cur l) (cur + l.length) = true := by
  intro l
  induction l with
  | nil => intro k st cur; simp [lexStep, coversTok]
  | cons c cs ih =>
      intro k st cur
      by_cases h : mergeable k = true ∧ tab.classify c = k
      · rw [lexStep, if_pos h]
        have := ih k st (cur + 1)
        have harith : cur + (c :: cs).length = cur + 1 + cs.length := by
          simp only [List.length_cons]; omega
        rw [harith]
        exact this
      · rw [lexStep, if_neg h]
        rw [coversTok]
        have := ih (tab.classify c) cur (cur + 1)
        have harith : cur + (c :: cs).length = cur + 1 + cs.length := by
          simp only [List.length_cons]; omega
        rw [harith]
        simp [this]

theorem lexFrom_covers (tab : ParseTable) :
    ∀ (l : List Char) (off : Nat),
      coversTok off (lexFrom tab l off) (off + l.length) = true := by
  intro l off
  cases l with
  | nil => simp [lexFrom, coversTok]
  | cons c cs =>
      rw [lexFrom]
      have := lexStep_covers tab cs (tab.classify c) off (off + 1)
      have harith : off + (c :: cs).length = off + 1 + cs.length := by
        simp only [List.length_cons]; omega
      rw [harith]
      exact this

theorem lexStep_nomerge (tab : ParseTable) (k : TokClass) (hk : mergeable k = false) :
    ∀ (l : List Char) (st cur : Nat),
      lexStep tab k st cur l = ⟨k, st, cur⟩ :: lexFrom tab l cur := by
  intro l st cur
  cases l with
  | nil => rw [lexStep, lexFrom]
  | cons c cs =>
      have h : ¬ (mergeable k = true ∧ tab.classify c = k) := by
        rw [hk]; simp
      rw [lexStep, if_neg h, lexFrom]

theorem lexFrom_nil (tab : ParseTable) (off : Nat) : lexFrom tab [] off = [] := rfl

theorem lexFrom_cons (tab : ParseTable) (c : Char) (cs : List Char) (off : Nat) :
    lexFrom tab (c :: cs) off = lexStep tab (tab.classify c) off (off + 1) cs := rfl

theorem lexStep_run (tab : ParseTable) (k : TokClass) (hk : mergeable k = true) :
    ∀ (m : Nat) (l : List Char) (st cur : Nat),
      m ≤ l.length →
      ((l.take m).all fun d => decide (tab.classify d = k)) = true →
      (∀ d ds, l.drop m = d :: ds → tab.classify d ≠ k) →
      lexStep tab k st cur l = ⟨k, st, cur + m⟩ :: lexFrom tab (l.drop m) (cur + m) := by
  intro m
  induction m with
  | zero =>
      intro l st cur _ _ hb
      simp only [List.drop_zero, Nat.add_zero]
      cases l with
      | nil => rw [lexStep, lexFrom_nil]
      | cons c cs =>
          have hc : tab.classify c ≠ k := hb c cs (by simp)
          have h : ¬ (mergeable k = true ∧ tab.classify c = k) := fun hh => hc hh.2
          rw [lexStep, if_neg h, lexFrom_cons]
  | succ m ih =>
      intro l st cur hm hall hb
      cases l with
      | nil => simp at hm
      | cons c cs =>
          simp only [List.take_succ_cons, List.all_cons, Bool.and_eq_true,
            decide_eq_true_eq] at hall
          have hc : tab.classify c = k := hall.1
          rw [lexStep, if_pos ⟨hk, hc⟩]
          have hrec := ih cs st (cur + 1) (by simpa using hm) hall.2
            (by intro d ds hd; exact hb d ds (by simpa using hd))
          rw [hrec]
          have harith : cur + 1 + m = cur + (m + 1) := by omega
          rw [harith]
          rfl

theorem checkToks_lex (tab : ParseTable) :
    ∀ (ts : List Token) (l : List Char) (off : Nat),
      checkToks tab l off ts = true → ts = lexFrom tab l off := by
  intro ts
  induction ts with
  | nil =>
      intro l off h
      rw [checkToks] at h
      cases l with
      | nil => rw [lexFrom_nil]
      | cons c cs => simp at h
  | cons tok ts ih =>
      intro l off h
      rw [checkToks] at h
      simp only [Bool.and_eq_true, Bool.or_eq_true, decide_eq_true_eq] at h
      obtain ⟨⟨⟨⟨⟨⟨hstart, hpos⟩, hlen⟩, hall⟩, hone⟩, hbound⟩, hrec⟩ := h
      obtain ⟨sy, sb, eb⟩ := tok
      simp only at hstart hpos hlen hall hone hbound hrec
      subst hstart
      obtain ⟨m, hm⟩ : ∃ m, eb - sb = m + 1 := ⟨eb - sb - 1, by omega⟩
      cases l with
      | nil => simp at hlen; omega
      | cons c cs =>
          rw [hm] at hall hbound hrec hlen
          simp only [List.take_succ_cons, List.all_cons, Bool.and_eq_true,
            decide_eq_true_eq] at hall
          have hc : tab.classify c = sy := hall.1
          have htl : ts = lexFrom tab ((c :: cs).drop (m + 1)) eb := ih _ _ hrec
          by_cases hmg : mergeable sy = true
          · have hb : ∀ d ds, cs.drop m = d :: ds → tab.classify d ≠ sy := by
              intro d ds hd
              have hdd : (c :: cs).drop (m + 1) = d :: ds := by simpa using hd
              rw [hdd] at hbound
              simp [hmg] at hbound
              exact hbound
            have hrun := lexStep_run tab sy hmg m cs sb (sb + 1)
              (by simp at hlen; omega) hall.2 hb
            rw [lexFrom_cons, hc, hrun, htl]
            have h1 : sb + 1 + m = eb := by omega
            rw [h1]
            simp
          · have hone1 : m + 1 = 1 := by
              rcases hone with h | h
              · exact absurd h hmg
              · omega
            have hm0 : m = 0 := by omega
            subst hm0
            have hmf : mergeable sy = false := by
              revert hmg; cases mergeable sy <;> simp
            rw [lexFrom_cons, hc, lexStep_nomerge tab sy hmf, htl]
            have h1 : sb + 1 = eb := by omega
            rw [h1]
            simp

theorem reconcile_eq_parse (tab : ParseTable) (prev : SyntaxNode)
    (edits : List EditRecord) (t2 : List Char) :
    reconcile tab prev edits t2 = parse tab t2 := by
  rw [reconcile]
  by_cases h : checkToks tab t2 0 (spliceCandidate tab prev edits t2) = true
  · rw [if_pos h]
    have hc := checkToks_lex tab (spliceCandidate tab prev edits t2) t2 0 h
    rw [hc, parse, lexText]
  · rw [if_neg h]

theorem applyEdit_noop (t : List Char) (e : TextEdit) (h : e.isNoop t) :
    applyEdit t e = t := by
  obtain ⟨h1, _h2, h3⟩ := h
  rw [applyEdit, h3]
  have hdt : (t.drop e.startB).take (e.oldEndB - e.startB) =
      (t.take e.oldEndB).drop e.startB := by
    rw [List.drop_take]
  have hts : (t.take e.oldEndB).take e.startB = t.take e.startB := by
    rw [List.take_take, inf_eq_left.mpr h1]
  rw [hdt, ← hts, List.take_append_drop, List.take_append_drop]

theorem applyEdits_noop (t : List Char) :
    ∀ es : List TextEdit, (∀ e ∈ es, e.isNoop t) → applyEdits t es = t := by
  intro es
  induction es with
  | nil => intro _; rfl
  | cons e es ih =>
      intro h
      rw [applyEdits, List.foldl_cons, applyEdit_noop t e (h e (by simp))]
      exact ih fun e' he' => h e' (by simp [he'])

theorem coversFrom_map_leafOf :
    ∀ (ts : List Token) (a b : Nat), coversTok a ts b = true →
      coversFrom a (ts.map leafOf) b = true := by
  intro ts
  induction ts with
  | nil => intro a b h; simpa [coversTok, coversFrom] using h
  | cons tok ts ih =>
      intro a b h
      rw [coversTok] at h
      simp only [Bool.and_eq_true, decide_eq_true_eq] at h
      rw [List.map_cons, coversFrom]
      simp only [Bool.and_eq_true, decide_eq_true_eq]
      exact ⟨h.1, ih tok.endB b h.2⟩

theorem nestedAll_map_leafOf : ∀ ts : List Token, nestedAll (ts.map leafOf) = true := by
  intro ts
  induction ts with
  | nil => rfl
  | cons tok ts ih =>
      rw [List.map_cons, nestedAll]
      simp only [Bool.and_eq_true]
      exact ⟨rfl, ih⟩

theorem parse_wellNested (tab : ParseTable) (t : List Char) :
    wellNested (parse tab t) = true := by
  rw [parse, wellNested]
  simp only [Bool.and_eq_true]
  constructor
  · have := lexFrom_covers tab t 0
    rw [Nat.zero_add] at this
    exact coversFrom_map_leafOf (lexText tab t) 0 t.length this
  · exact nestedAll_map_leafOf (lexText tab t)

/-! ## The claims -/

/-- C1: the grammar accessor is a single exported, ABI-stable function named
`tree_sitter_tsg_python`: it is the only function the header declares, takes
no arguments, returns a pointer to the const-qualified incomplete type
`TSLanguage` (an opaque handle to the compiled Parse Table), and sits inside
the C-linkage block, so its exported symbol is stable. -/
theorem header_single_accessor_decl :
    tsg_python_h.functions =
      [{ name := "tree_sitter_tsg_python",
         returnType := CType.ptr (CType.constQual (CType.named "TSLanguage")),
         paramTypes := [],
         hasCLinkage := true }] ∧
    tsg_python_h.typedefs =
      [{ structTag := "TSLanguage", name := "TSLanguage", hasDefinition := false }] :=
  ⟨rfl, rfl⟩

/-- C2: the grammar accessor is idempotent: in any state, every call of any
sequence of calls returns the same handle value as every other call (each
equals the single-call result), and the sequence leaves the state unchanged. -/
theorem accessor_idempotent (w : GrammarWorld) (n : Nat) :
    (runCalls w n).1 = w ∧
      ∀ r ∈ (runCalls w n).2, r = (tree_sitter_tsg_python w).2 := by
  induction n with
  | zero =>
      refine ⟨rfl, ?_⟩
      intro r hr
      simp [runCalls] at hr
  | succ n ih =>
      have hstep : runCalls w (n + 1) =
          ((runCalls w n).1, (tree_sitter_tsg_python w).2 :: (runCalls w n).2) := rfl
      rw [hstep]
      refine ⟨ih.1, ?_⟩
      intro r hr
      rcases List.mem_cons.mp hr with heq | hmem
      · subst heq; rfl
      · exact ih.2 r hmem

/-- C3: the grammar accessor is safe to call concurrently: under any
interleaving schedule of calls by any set of threads, every thread's every
call returns the same handle value, and no call changes the shared state. -/
theorem accessor_thread_safe (w : GrammarWorld) (sched : List Nat)
    (h : w.tableDefined = true) :
    (runThreads w sched).1 = w ∧
      ∀ p ∈ (runThreads w sched).2, p.2 = some w.tableAddr := by
  induction sched with
  | nil =>
      refine ⟨rfl, ?_⟩
      intro p hp
      simp [runThreads] at hp
  | cons tid rest ih =>
      have hstep : runThreads w (tid :: rest) =
          ((runThreads w rest).1,
            (tid, (tree_sitter_tsg_python w).2) :: (runThreads w rest).2) := rfl
      rw [hstep]
      refine ⟨ih.1, ?_⟩
      intro p hp
      rcases List.mem_cons.mp hp with heq | hmem
      · subst heq
        simp [tree_sitter_tsg_python, h]
      · exact ih.2 p hmem

/-- Witness for C3: three interleaved calls by threads 0 and 1 on a concrete
world all return handle 7 and leave the world unchanged. -/
theorem accessor_thread_safe_witness :
    (runThreads ⟨7, true⟩ [0, 1, 0]).1 = (⟨7, true⟩ : GrammarWorld) ∧
      ∀ p ∈ (runThreads ⟨7, true⟩ [0, 1, 0]).2, p.2 = some (7 : Nat) :=
  accessor_thread_safe ⟨7, true⟩ [0, 1, 0] rfl

/-- C4: the grammar accessor has no state and no failure modes other than the
existence of the grammar table: whenever the table exists, a call changes no
observable state and succeeds, returning the grammar-table handle. -/
theorem accessor_stateless_total (w : GrammarWorld) (h : w.tableDefined = true) :
    (tree_sitter_tsg_python w).1 = w ∧
      (tree_sitter_tsg_python w).2 = some w.tableAddr := by
  refine ⟨rfl, ?_⟩
  simp [tree_sitter_tsg_python, h]

/-- Witness for C4 at a concrete world. -/
theorem accessor_stateless_total_witness :
    (tree_sitter_tsg_python ⟨5, true⟩).1 = (⟨5, true⟩ : GrammarWorld) ∧
      (tree_sitter_tsg_python ⟨5, true⟩).2 = some (5 : Nat) :=
  accessor_stateless_total ⟨5, true⟩ rfl

/-- C5: the Parse Table reached through the accessor's handle is immutable:
the declared return type is a pointer to a const-qualified pointee, and no
engine operation (parse or reconcile, in any sequence) changes the engine's
table, so unsynchronized concurrent reads of it are safe. -/
theorem parse_table_immutable :
    (tsg_python_h.functions.all fun f => f.returnType.isConstPointer) = true ∧
      ∀ (s : EngineState) (ops : List EngineOp), (runEngine s ops).table = s.table := by
  refine ⟨rfl, ?_⟩
  intro s ops
  induction ops generalizing s with
  | nil => rfl
  | cons op ops ih =>
      rw [runEngine, ih (stepEngine s op)]
      cases op <;> rfl

/-- C6: full-reparse equivalence: for every text, edit sequence and resulting
text, reconciling the old parse tree with the edits against the resulting
text yields a tree structurally equal (same symbols, spans and error/missing
flags, which is Lean equality of `SyntaxNode`) to a fresh parse of the
resulting text. -/
theorem full_reparse_equivalence (tab : ParseTable) (t1 : List Char)
    (es : List TextEdit) (t2 : List Char) (_ht2 : t2 = applyEdits t1 es) :
    reconcile tab (parse tab t1) (edRecords es) t2 = parse tab t2 :=
  reconcile_eq_parse tab (parse tab t1) (edRecords es) t2

/-- Witness for C6: replacing the "." of "ab.cd" by "+" and reconciling gives
exactly the fresh parse of "ab+cd". -/
theorem full_reparse_equivalence_witness :
    reconcile pyTable (parse pyTable ("ab.cd".toList))
        (edRecords [⟨2, 3, "+".toList⟩])
        (applyEdits ("ab.cd".toList) [⟨2, 3, "+".toList⟩]) =
      parse pyTable (applyEdits ("ab.cd".toList) [⟨2, 3, "+".toList⟩]) :=
  full_reparse_equivalence pyTable ("ab.cd".toList) [⟨2, 3, "+".toList⟩]
    (applyEdits ("ab.cd".toList) [⟨2, 3, "+".toList⟩]) rfl

/-- C7: span-coverage invariant: every tree produced by parse or reconcile
has a root spanning exactly `[0, length)` of its text, and every internal
node's span is the contiguous, non-overlapping union of its children's spans
with the children in left-to-right source order (`wellNested`). -/
theorem span_coverage_invariant (tab : ParseTable) (t : List Char) :
    ((parse tab t).startB = 0 ∧ (parse tab t).endB = t.length ∧
      wellNested (parse tab t) = true) ∧
    ∀ (prev : SyntaxNode) (edits : List EditRecord) (t2 : List Char),
      (reconcile tab prev edits t2).startB = 0 ∧
        (reconcile tab prev edits t2).endB = t2.length ∧
        wellNested (reconcile tab prev edits t2) = true := by
  refine ⟨⟨rfl, rfl, parse_wellNested tab t⟩, ?_⟩
  intro prev edits t2
  rw [reconcile_eq_parse]
  exact ⟨rfl, rfl, parse_wellNested tab t2⟩

/-- C8: recovery termination: parsing any input, malformed included, returns
exactly one root node spanning the whole input (`parse` is a total function
of the input, so it terminates); every produced token, the synthetic error
tokens of recovery included, consumes at least one code point, and the total
number of tokens is bounded by the input length. -/
theorem recovery_termination (tab : ParseTable) (t : List Char) :
    (parse tab t).startB = 0 ∧ (parse tab t).endB = t.length ∧
      (∀ tok ∈ lexText tab t, tok.startB < tok.endB) ∧
      (lexText tab t).length ≤ t.length := by
  refine ⟨rfl, rfl, ?_, ?_⟩
  · intro tok htok
    cases t with
    | nil => simp [lexText, lexFrom_nil] at htok
    | cons c cs =>
        rw [lexText, lexFrom_cons] at htok
        exact lexStep_progress tab cs (tab.classify c) 0 1 (by omega) tok htok
  · cases t with
    | nil => simp [lexText, lexFrom_nil]
    | cons c cs =>
        rw [lexText, lexFrom_cons]
        have := lexStep_length tab cs (tab.classify c) 0 1
        simpa using this

/-- C9: no-op edit idempotence: reconciling the tree of a text with an edit
sequence each of whose edits replaces a range with identical text yields a
tree equal to the input tree, spans unchanged. -/
theorem noop_edit_idempotence (tab : ParseTable) (t : List Char)
    (es : List TextEdit) (h : ∀ e ∈ es, e.isNoop t) :
    reconcile tab (parse tab t) (edRecords es) (applyEdits t es) = parse tab t := by
  rw [applyEdits_noop t es h]
  exact reconcile_eq_parse tab (parse tab t) (edRecords es) t

/-- Witness for C9: replacing byte range `[1, 2)` of "abc" with "b" and
reconciling returns the original tree. -/
theorem noop_edit_idempotence_witness :
    reconcile pyTable (parse pyTable ("abc".toList))
        (edRecords [⟨1, 2, "b".toList⟩])
        (applyEdits ("abc".toList) [⟨1, 2, "b".toList⟩]) =
      parse pyTable ("abc".toList) :=
  noop_edit_idempotence pyTable ("abc".toList) [⟨1, 2, "b".toList⟩] (by decide)

/-- C10: the handle type `TSLanguage` is only forward-declared (incomplete)
in the header, so this interface lets a caller neither construct, copy,
dereference nor inspect a Parse Table value; the accessor is the sole
declaration whose signature involves `TSLanguage`, and it yields the value
only behind a pointer. -/
theorem opaque_handle_interface :
    (tsg_python_h.typedefs.all fun td => !td.hasDefinition) = true ∧
    ((tsg_python_h.functions.filter fun f => f.involves "TSLanguage").map
      FunDecl.name) = ["tree_sitter_tsg_python"] ∧
    (tsg_python_h.functions.all fun f =>
      !(f.returnType.mentionsName "TSLanguage") || f.returnType.isPointer) = true ∧
    (tsg_python_h.functions.all fun f =>
      f.paramTypes.all fun p => !(p.mentionsName "TSLanguage")) = true := by
  refine ⟨rfl, ?_, rfl, rfl⟩
  rfl
